import Mathlib

/-
Verification development for the yuka fuzzy-inference core.

The file shallowly embeds the code of src/src/fuzzy/FuzzyModule.js together
with the collaborator classes it drives (FuzzyTerm, FuzzyOR/FuzzyAND,
FuzzySet, FuzzyVariable, FuzzyRule).  The collaborators are not part of the
visible sources (only their tests are), so their definitions are modelled
from the specification, as marked in their doc comments.  Mutable
degree-of-membership state of the shared FuzzySet leaves is represented by
an explicit heap (set id to rational degree); JavaScript exceptions are
represented by the Except monad; the value a JS method returns is made
explicit (JSRet.self models a method body ending in return this).
-/

set_option autoImplicit false

namespace Yuka

/-- Heap of shared mutable FuzzySet state: degree of membership per set id. -/
abbrev Heap := Nat → ℚ

/-- Decidable equality of Except values over decidable components. -/
instance {ε α : Type} [DecidableEq ε] [DecidableEq α] : DecidableEq (Except ε α)
  | .error e, .error f =>
      match decEq e f with
      | isTrue h => isTrue (by rw [h])
      | isFalse h => isFalse (by intro hh; injection hh; contradiction)
  | .error _, .ok _ => isFalse nofun
  | .ok _, .error _ => isFalse nofun
  | .ok a, .ok b =>
      match decEq a b with
      | isTrue h => isTrue (by rw [h])
      | isFalse h => isFalse (by intro hh; injection hh; contradiction)

/-- Result value of a JS expression that may be undefined or a number. -/
inductive JSVal where
  | undef : JSVal
  | num (q : ℚ) : JSVal
deriving DecidableEq

/-- Return value of a JS method whose body ends in return this. -/
inductive JSRet where
  | self : JSRet
deriving DecidableEq

/-- Modelled from the spec: a node of a fuzzy expression tree.  base is the
abstract FuzzyTerm with no concrete backing state (its implementation is
absent from the sources; only its test is visible); leaf is a FuzzySet
reference identified by its heap id; fuzzyAND and fuzzyOR are the composite
operators over an ordered child list. -/
inductive FTerm where
  | base : FTerm
  | leaf (id : Nat) : FTerm
  | fuzzyAND (terms : List FTerm) : FTerm
  | fuzzyOR (terms : List FTerm) : FTerm

mutual

/-- Decidable structural equality of fuzzy terms. -/
def FTerm.decEq : (t u : FTerm) → Decidable (t = u)
  | .base, .base => isTrue rfl
  | .base, .leaf _ => isFalse nofun
  | .base, .fuzzyAND _ => isFalse nofun
  | .base, .fuzzyOR _ => isFalse nofun
  | .leaf _, .base => isFalse nofun
  | .leaf i, .leaf j =>
      match Nat.decEq i j with
      | isTrue he => isTrue (by rw [he])
      | isFalse hne => isFalse (by intro hh; injection hh; contradiction)
  | .leaf _, .fuzzyAND _ => isFalse nofun
  | .leaf _, .fuzzyOR _ => isFalse nofun
  | .fuzzyAND _, .base => isFalse nofun
  | .fuzzyAND _, .leaf _ => isFalse nofun
  | .fuzzyAND ts, .fuzzyAND us =>
      match FTerm.decEqList ts us with
      | isTrue he => isTrue (by rw [he])
      | isFalse hne => isFalse (by intro hh; injection hh; contradiction)
  | .fuzzyAND _, .fuzzyOR _ => isFalse nofun
  | .fuzzyOR _, .base => isFalse nofun
  | .fuzzyOR _, .leaf _ => isFalse nofun
  | .fuzzyOR _, .fuzzyAND _ => isFalse nofun
  | .fuzzyOR ts, .fuzzyOR us =>
      match FTerm.decEqList ts us with
      | isTrue he => isTrue (by rw [he])
      | isFalse hne => isFalse (by intro hh; injection hh; contradiction)

/-- Decidable structural equality of fuzzy term lists. -/
def FTerm.decEqList : (ts us : List FTerm) → Decidable (ts = us)
  | [], [] => isTrue rfl
  | [], _ :: _ => isFalse nofun
  | _ :: _, [] => isFalse nofun
  | t :: ts, u :: us =>
      match FTerm.decEq t u with
      | isFalse hne => isFalse (by intro hh; injection hh; contradiction)
      | isTrue he =>
          match FTerm.decEqList ts us with
          | isTrue he2 => isTrue (by rw [he, he2])
          | isFalse hne2 => isFalse (by intro hh; injection hh; contradiction)

end

instance : DecidableEq FTerm := FTerm.decEq

mutual

/-- Modelled from the spec: getDegreeOfMembership.  The base FuzzyTerm has
empty method bodies (its visible test calls all three methods and expects
normal completion), so it yields the JS value undefined.  A leaf reads the
stored scratch value; FuzzyAND takes the minimum and FuzzyOR the maximum
over the children; an empty-child composite is a configuration error. -/
def FTerm.getDOM (h : Heap) : FTerm → Except String JSVal
  | .base => .ok .undef
  | .leaf i => .ok (.num (h i))
  | .fuzzyAND ts =>
      match FTerm.getDOMs h ts with
      | .error e => .error e
      | .ok [] => .error "YUKA.FuzzyAND: empty operand list."
      | .ok (d :: ds) => .ok (.num (ds.foldl min d))
  | .fuzzyOR ts =>
      match FTerm.getDOMs h ts with
      | .error e => .error e
      | .ok [] => .error "YUKA.FuzzyOR: empty operand list."
      | .ok (d :: ds) => .ok (.num (ds.foldl max d))

/-- Modelled from the spec: the degrees of membership of a child list, as
numbers; a child producing the JS value undefined is a configuration
error. -/
def FTerm.getDOMs (h : Heap) : List FTerm → Except String (List ℚ)
  | [] => .ok []
  | t :: ts =>
      match FTerm.getDOM h t with
      | .error e => .error e
      | .ok .undef => .error "YUKA.FuzzyTerm: degree of membership is undefined."
      | .ok (.num d) =>
          match FTerm.getDOMs h ts with
          | .error e => .error e
          | .ok ds => .ok (d :: ds)

end

mutual

/-- Modelled from the spec: updateDegreeOfMembership.  On a consequent
FuzzySet leaf the semantics is OR-accumulate (take the maximum of the
current and the new value, never overwrite); a composite recurses into
every child with the same value; the base FuzzyTerm has an empty method
body and leaves the state unchanged. -/
def FTerm.updateDOM (v : ℚ) (h : Heap) : FTerm → Heap
  | .base => h
  | .leaf i => fun j => if j = i then max (h i) v else h j
  | .fuzzyAND ts => FTerm.updateDOMs v h ts
  | .fuzzyOR ts => FTerm.updateDOMs v h ts

/-- Modelled from the spec: sequential update of every child of a composite. -/
def FTerm.updateDOMs (v : ℚ) (h : Heap) : List FTerm → Heap
  | [] => h
  | t :: ts => FTerm.updateDOMs v (FTerm.updateDOM v h t) ts

end

mutual

/-- Modelled from the spec: clearDegreeOfMembership resets the scratch state
of every transitively wrapped FuzzySet leaf to 0; the base FuzzyTerm has an
empty method body and leaves the state unchanged. -/
def FTerm.clearDOM (h : Heap) : FTerm → Heap
  | .base => h
  | .leaf i => fun j => if j = i then 0 else h j
  | .fuzzyAND ts => FTerm.clearDOMs h ts
  | .fuzzyOR ts => FTerm.clearDOMs h ts

/-- Modelled from the spec: sequential clear of every child of a composite. -/
def FTerm.clearDOMs (h : Heap) : List FTerm → Heap
  | [] => h
  | t :: ts => FTerm.clearDOMs (FTerm.clearDOM h t) ts

end

mutual

/-- The set ids of the FuzzySet leaves of a term, in visit order. -/
def FTerm.leaves : FTerm → List Nat
  | .base => []
  | .leaf i => [i]
  | .fuzzyAND ts => FTerm.leavesList ts
  | .fuzzyOR ts => FTerm.leavesList ts

/-- The set ids of the FuzzySet leaves of a child list. -/
def FTerm.leavesList : List FTerm → List Nat
  | [] => []
  | t :: ts => FTerm.leaves t ++ FTerm.leavesList ts

end

mutual

/-- Well-formedness of a fuzzy expression: no abstract base FuzzyTerm and no
empty-child composite (the two configuration errors of the spec). -/
def FTerm.wf : FTerm → Bool
  | .base => false
  | .leaf _ => true
  | .fuzzyAND ts => !ts.isEmpty && FTerm.wfList ts
  | .fuzzyOR ts => !ts.isEmpty && FTerm.wfList ts

/-- Well-formedness of every term of a child list. -/
def FTerm.wfList : List FTerm → Bool
  | [] => true
  | t :: ts => FTerm.wf t && FTerm.wfList ts

end

/-- Modelled from the spec: a fuzzy rule holds exactly one antecedent and one
consequent expression tree; the FuzzySet leaves they reference are shared
state living in the heap. -/
structure FuzzyRule where
  antecedent : FTerm
  consequent : FTerm
deriving DecidableEq

/-- Modelled from the spec: initConsequence calls clearDegreeOfMembership on
the consequent subtree. -/
def FuzzyRule.initConsequence (r : FuzzyRule) (h : Heap) : Heap :=
  FTerm.clearDOM h r.consequent

/-- Modelled from the spec: evaluate computes the degree of membership of the
antecedent and calls updateDegreeOfMembership on the consequent subtree with
that value. -/
def FuzzyRule.evaluate (r : FuzzyRule) (h : Heap) : Except String Heap :=
  match FTerm.getDOM h r.antecedent with
  | .error e => .error e
  | .ok .undef => .error "YUKA.FuzzyRule: antecedent degree is undefined."
  | .ok (.num d) => .ok (FTerm.updateDOM d h r.consequent)

/-- Modelled from the spec: a concrete linguistic FuzzySet; its mutable
degree of membership lives in the heap under its id; the representative
value is the crisp value of its peak, used by MaxAv; shape is its membership
function over the domain. -/
structure FuzzySet where
  id : Nat
  representativeValue : ℚ
  shape : ℚ → ℚ

/-- Clamp of a membership value to the unit interval. -/
def clamp01 (x : ℚ) : ℚ := min 1 (max 0 x)

/-- Modelled from the spec: a fuzzy linguistic variable owns a family of
FuzzySets sharing the numeric domain bounded by minRange and maxRange. -/
structure FLV where
  minRange : ℚ
  maxRange : ℚ
  fuzzySets : List FuzzySet

/-- Modelled from the spec: FuzzyVariable.fuzzify fails with a domain error
if the crisp value lies outside the range, otherwise evaluates every owned
FuzzySet shape at the value, clamps to the unit interval and stores the
result as the degree of membership of that set. -/
def FLV.fuzzify (flv : FLV) (h : Heap) (v : ℚ) : Except String Heap :=
  if v < flv.minRange ∨ flv.maxRange < v then
    .error "YUKA.FuzzyVariable: value out of range."
  else
    .ok (flv.fuzzySets.foldl
      (fun hh s => fun j => if j = s.id then clamp01 (s.shape v) else hh j) h)

/-- Modelled from the spec: defuzzifyMaxAv is the average of the
representative values weighted by the current degrees of membership,
restricted to sets with positive degree; 0 when no set qualifies. -/
def FLV.defuzzifyMaxAv (flv : FLV) (h : Heap) : ℚ :=
  let qual := flv.fuzzySets.filter (fun s => decide (0 < h s.id))
  let num := (qual.map (fun s => s.representativeValue * h s.id)).sum
  let den := (qual.map (fun s => h s.id)).sum
  if den = 0 then 0 else num / den

/-- Modelled from the spec: defuzzifyCentroid numerically integrates the
centroid of the combined degree-clipped membership curve over the domain
with a fixed sample count; 0 when the combined membership vanishes. -/
def FLV.defuzzifyCentroid (flv : FLV) (h : Heap) : ℚ :=
  let n : Nat := 10
  let step := (flv.maxRange - flv.minRange) / (n : ℚ)
  let clipped := fun x : ℚ =>
    (flv.fuzzySets.map (fun s => min (clamp01 (s.shape x)) (h s.id))).foldl max 0
  let samples := (List.range n).map (fun j => flv.minRange + ((j : ℚ) + 1 / 2) * step)
  let num := (samples.map (fun x => x * clipped x)).sum
  let den := (samples.map clipped).sum
  if den = 0 then 0 else num / den

/-- JS Map.get on the association-list model of FuzzyModule.flvs. -/
def mapGet (m : List (String × FLV)) (k : String) : Option FLV :=
  match m.find? (fun p => p.1 == k) with
  | some p => some p.2
  | none => none

/-- JS Map.set: rebinds an existing key in place, otherwise appends. -/
def mapSet (m : List (String × FLV)) (k : String) (v : FLV) : List (String × FLV) :=
  if m.any (fun p => p.1 == k) then
    m.map (fun p => if p.1 == k then (k, v) else p)
  else
    m ++ [(k, v)]

/-- JS Map.delete: removes the binding of the key when present. -/
def mapDelete (m : List (String × FLV)) (k : String) : List (String × FLV) :=
  m.filter (fun p => !(p.1 == k))

/-- The FuzzyModule of src/src/fuzzy/FuzzyModule.js: an ordered rule sequence
and a map of FLVs (modelled as an insertion-ordered association list with
unique keys). -/
structure FuzzyModule where
  rules : List FuzzyRule
  flvs : List (String × FLV)

/-- FuzzyModule.addFLV: this.flvs.set( name, flv ); return this. -/
def FuzzyModule.addFLV (m : FuzzyModule) (name : String) (flv : FLV) :
    FuzzyModule × JSRet :=
  ({ m with flvs := mapSet m.flvs name flv }, .self)

/-- FuzzyModule.removeFLV: this.flvs.delete( name ); return this. -/
def FuzzyModule.removeFLV (m : FuzzyModule) (name : String) : FuzzyModule × JSRet :=
  ({ m with flvs := mapDelete m.flvs name }, .self)

/-- FuzzyModule.addRule: this.rules.push( rule ); return this. -/
def FuzzyModule.addRule (m : FuzzyModule) (rule : FuzzyRule) : FuzzyModule × JSRet :=
  ({ m with rules := m.rules ++ [rule] }, .self)

/-- JS Array.prototype.indexOf: index of the first occurrence, -1 if absent. -/
def jsIndexOf (l : List FuzzyRule) (r : FuzzyRule) : Int :=
  match l.findIdx? (fun x => x == r) with
  | some i => (i : Int)
  | none => -1

/-- JS Array.prototype.splice( i, 1 ): a negative index counts from the end
(clamped at 0), so splice( -1, 1 ) removes the last element. -/
def jsSplice1 (l : List FuzzyRule) (i : Int) : List FuzzyRule :=
  let start : Nat := if i < 0 then (i + l.length).toNat else i.toNat
  l.take start ++ l.drop (start + 1)

/-- FuzzyModule.removeRule: const index = rules.indexOf( rule );
rules.splice( index, 1 ); return this.  There is no index check, so an
absent rule yields index -1 and splice removes the last rule. -/
def FuzzyModule.removeRule (m : FuzzyModule) (rule : FuzzyRule) :
    FuzzyModule × JSRet :=
  ({ m with rules := jsSplice1 m.rules (jsIndexOf m.rules rule) }, .self)

/-- FuzzyModule.fuzzify: const flv = this.flvs.get( name );
flv.fuzzify( value ); return this.  An unregistered name makes flv the JS
value undefined, so the method call on it raises a TypeError before any FLV
state changes. -/
def FuzzyModule.fuzzify (m : FuzzyModule) (h : Heap) (name : String) (value : ℚ) :
    Heap × Except String JSRet :=
  match mapGet m.flvs name with
  | none => (h, .error "TypeError: flv is undefined")
  | some flv =>
      match FLV.fuzzify flv h value with
      | .error e => (h, .error e)
      | .ok h2 => (h2, .ok .self)

/-- Observable call events of a defuzzification cycle: initConsequence and
evaluate of the rule at a registration index, and the dispatch to a
defuzzification method of the named FLV. -/
inductive Ev where
  | initC (i : Nat) : Ev
  | evalR (i : Nat) : Ev
  | dispatch (method : Nat) : Ev
deriving DecidableEq

/-- The loop of FuzzyModule._initConsequences: rule.initConsequence() on
every registered rule in order, instrumented with call events. -/
def runRulesInit : List FuzzyRule → Nat → Heap → Heap × List Ev
  | [], _, h => (h, [])
  | r :: rs, i, h =>
      let h1 := r.initConsequence h
      let out := runRulesInit rs (i + 1) h1
      (out.1, Ev.initC i :: out.2)

/-- The evaluation loop of FuzzyModule.defuzzify: rule.evaluate() on every
registered rule in order, instrumented with call events; a raised
configuration error aborts the loop and propagates. -/
def runRulesEval : List FuzzyRule → Nat → Heap → Heap × Option String × List Ev
  | [], _, h => (h, none, [])
  | r :: rs, i, h =>
      match r.evaluate h with
      | .error e => (h, some e, [Ev.evalR i])
      | .ok h1 =>
          let out := runRulesEval rs (i + 1) h1
          (out.1, out.2.1, Ev.evalR i :: out.2.2)

/-- FuzzyModule.DEFUZ_TYPE.MAXAV. -/
def DEFUZ_MAXAV : Nat := 0

/-- FuzzyModule.DEFUZ_TYPE.CENTROID. -/
def DEFUZ_CENTROID : Nat := 1

/-- Outcome of a FuzzyModule.defuzzify call: the module reference after the
call, the final shared FuzzySet state, the crisp value or raised error, the
Logger.warn flag, and the event trace. -/
structure DefuzResult where
  moduleState : FuzzyModule
  heap : Heap
  value : Except String ℚ
  warned : Bool
  trace : List Ev

/-- FuzzyModule.defuzzify: this._initConsequences(); evaluate every rule in
registration order; then look up the named FLV and switch on the type:
MAXAV and CENTROID dispatch to the matching method, any other type logs a
warning and falls back to defuzzifyMaxAv.  An unregistered name leaves flv
undefined so the dispatched method call raises a TypeError, after the rule
loops already ran. -/
def FuzzyModule.defuzzify (m : FuzzyModule) (h : Heap) (name : String) (type : Nat) :
    DefuzResult :=
  let ini := runRulesInit m.rules 0 h
  let ev := runRulesEval m.rules 0 ini.1
  let tr := ini.2 ++ ev.2.2
  let out : Except String ℚ × Bool × List Ev :=
    match ev.2.1, mapGet m.flvs name with
    | some e, _ => (.error e, false, tr)
    | none, none =>
        if type = DEFUZ_MAXAV then (.error "TypeError: flv is undefined", false, tr)
        else if type = DEFUZ_CENTROID then (.error "TypeError: flv is undefined", false, tr)
        else (.error "TypeError: flv is undefined", true, tr)
    | none, some flv =>
        if type = DEFUZ_MAXAV then
          (.ok (flv.defuzzifyMaxAv ev.1), false, tr ++ [Ev.dispatch DEFUZ_MAXAV])
        else if type = DEFUZ_CENTROID then
          (.ok (flv.defuzzifyCentroid ev.1), false, tr ++ [Ev.dispatch DEFUZ_CENTROID])
        else
          (.ok (flv.defuzzifyMaxAv ev.1), true, tr ++ [Ev.dispatch DEFUZ_MAXAV])
  ⟨m, ev.1, out.1, out.2.1, out.2.2⟩

/-- The set ids written by the consequents of a rule list. -/
def consLeaves : List FuzzyRule → List Nat
  | [] => []
  | r :: rs => FTerm.leaves r.consequent ++ consLeaves rs

/-- The set ids read by the antecedents of a rule list. -/
def antLeaves : List FuzzyRule → List Nat
  | [] => []
  | r :: rs => FTerm.leaves r.antecedent ++ antLeaves rs

/-- The numeric degree of membership of the antecedent of a rule on a heap,
0 when the antecedent does not evaluate to a number. -/
def degOf (h : Heap) (r : FuzzyRule) : ℚ :=
  match FTerm.getDOM h r.antecedent with
  | .ok (.num d) => d
  | _ => 0

/-- Whether an Except value is a raised error. -/
def isErrE (e : Except String ℚ) : Bool :=
  match e with
  | .error _ => true
  | .ok _ => false

end Yuka

namespace Yuka

mutual

/-- Pointwise effect of updateDegreeOfMembership: every leaf of the term
OR-accumulates the value, every other heap cell is untouched. -/
theorem updateDOM_apply : ∀ (t : FTerm) (v : ℚ) (h : Heap) (j : Nat),
    FTerm.updateDOM v h t j = if j ∈ FTerm.leaves t then max (h j) v else h j
  | .base, v, h, j => by simp [FTerm.updateDOM, FTerm.leaves]
  | .leaf i, v, h, j => by
      by_cases hji : j = i
      · subst hji; simp [FTerm.updateDOM, FTerm.leaves]
      · simp [FTerm.updateDOM, FTerm.leaves, hji]
  | .fuzzyAND ts, v, h, j => by
      have := updateDOMs_apply ts v h j
      simpa [FTerm.updateDOM, FTerm.leaves] using this
  | .fuzzyOR ts, v, h, j => by
      have := updateDOMs_apply ts v h j
      simpa [FTerm.updateDOM, FTerm.leaves] using this

/-- Pointwise effect of updating every child of a composite in sequence. -/
theorem updateDOMs_apply : ∀ (ts : List FTerm) (v : ℚ) (h : Heap) (j : Nat),
    FTerm.updateDOMs v h ts j = if j ∈ FTerm.leavesList ts then max (h j) v else h j
  | [], v, h, j => by simp [FTerm.updateDOMs, FTerm.leavesList]
  | t :: ts, v, h, j => by
      have h1 := updateDOMs_apply ts v (FTerm.updateDOM v h t) j
      have h2 := updateDOM_apply t v h j
      rw [show FTerm.updateDOMs v h (t :: ts)
            = FTerm.updateDOMs v (FTerm.updateDOM v h t) ts from rfl]
      rw [h1, h2]
      by_cases m1 : j ∈ FTerm.leavesList ts <;> by_cases m2 : j ∈ FTerm.leaves t <;>
        simp [FTerm.leavesList, List.mem_append, m1, m2, max_assoc, max_self]

end

mutual

/-- Pointwise effect of clearDegreeOfMembership: every leaf of the term is
reset to 0, every other heap cell is untouched. -/
theorem clearDOM_apply : ∀ (t : FTerm) (h : Heap) (j : Nat),
    FTerm.clearDOM h t j = if j ∈ FTerm.leaves t then 0 else h j
  | .base, h, j => by simp [FTerm.clearDOM, FTerm.leaves]
  | .leaf i, h, j => by
      by_cases hji : j = i
      · subst hji; simp [FTerm.clearDOM, FTerm.leaves]
      · simp [FTerm.clearDOM, FTerm.leaves, hji]
  | .fuzzyAND ts, h, j => by
      have := clearDOMs_apply ts h j
      simpa [FTerm.clearDOM, FTerm.leaves] using this
  | .fuzzyOR ts, h, j => by
      have := clearDOMs_apply ts h j
      simpa [FTerm.clearDOM, FTerm.leaves] using this

/-- Pointwise effect of clearing every child of a composite in sequence. -/
theorem clearDOMs_apply : ∀ (ts : List FTerm) (h : Heap) (j : Nat),
    FTerm.clearDOMs h ts j = if j ∈ FTerm.leavesList ts then 0 else h j
  | [], h, j => by simp [FTerm.clearDOMs, FTerm.leavesList]
  | t :: ts, h, j => by
      have h1 := clearDOMs_apply ts (FTerm.clearDOM h t) j
      have h2 := clearDOM_apply t h j
      rw [show FTerm.clearDOMs h (t :: ts)
            = FTerm.clearDOMs (FTerm.clearDOM h t) ts from rfl]
      rw [h1, h2]
      by_cases m1 : j ∈ FTerm.leavesList ts <;> by_cases m2 : j ∈ FTerm.leaves t <;>
        simp [FTerm.leavesList, List.mem_append, m1, m2]

end

mutual

/-- getDegreeOfMembership only reads the heap at the leaves of the term. -/
theorem getDOM_congr : ∀ (t : FTerm) (h h2 : Heap),
    (∀ j ∈ FTerm.leaves t, h j = h2 j) → FTerm.getDOM h t = FTerm.getDOM h2 t
  | .base, _, _, _ => rfl
  | .leaf i, h, h2, hj => by
      have := hj i (by simp [FTerm.leaves])
      simp [FTerm.getDOM, this]
  | .fuzzyAND ts, h, h2, hj => by
      have := getDOMs_congr ts h h2 (fun j hjm => hj j (by simpa [FTerm.leaves] using hjm))
      simp [FTerm.getDOM, this]
  | .fuzzyOR ts, h, h2, hj => by
      have := getDOMs_congr ts h h2 (fun j hjm => hj j (by simpa [FTerm.leaves] using hjm))
      simp [FTerm.getDOM, this]

/-- The child-degree list only reads the heap at the leaves of the children. -/
theorem getDOMs_congr : ∀ (ts : List FTerm) (h h2 : Heap),
    (∀ j ∈ FTerm.leavesList ts, h j = h2 j) → FTerm.getDOMs h ts = FTerm.getDOMs h2 ts
  | [], _, _, _ => rfl
  | t :: ts, h, h2, hj => by
      have e1 := getDOM_congr t h h2
        (fun j hjm => hj j (by simp [FTerm.leavesList, List.mem_append]; exact Or.inl hjm))
      have e2 := getDOMs_congr ts h h2
        (fun j hjm => hj j (by simp [FTerm.leavesList, List.mem_append]; exact Or.inr hjm))
      simp [FTerm.getDOMs, e1, e2]

end

mutual

/-- A well-formed term always evaluates to a numeric degree of membership. -/
theorem wf_getDOM : ∀ (t : FTerm) (h : Heap), FTerm.wf t = true →
    ∃ d, FTerm.getDOM h t = .ok (.num d)
  | .base, h => by intro hw; simp [FTerm.wf] at hw
  | .leaf i, h => fun _ => ⟨h i, rfl⟩
  | .fuzzyAND ts, h => by
      intro hw
      simp only [FTerm.wf, Bool.and_eq_true] at hw
      obtain ⟨hne, hl⟩ := hw
      obtain ⟨ds, hds, hlen⟩ := wfList_getDOMs ts h hl
      cases ts with
      | nil => simp [List.isEmpty] at hne
      | cons t ts2 =>
          cases ds with
          | nil => simp at hlen
          | cons d ds2 => exact ⟨ds2.foldl min d, by simp [FTerm.getDOM, hds]⟩
  | .fuzzyOR ts, h => by
      intro hw
      simp only [FTerm.wf, Bool.and_eq_true] at hw
      obtain ⟨hne, hl⟩ := hw
      obtain ⟨ds, hds, hlen⟩ := wfList_getDOMs ts h hl
      cases ts with
      | nil => simp [List.isEmpty] at hne
      | cons t ts2 =>
          cases ds with
          | nil => simp at hlen
          | cons d ds2 => exact ⟨ds2.foldl max d, by simp [FTerm.getDOM, hds]⟩

/-- A well-formed child list always yields a numeric degree per child. -/
theorem wfList_getDOMs : ∀ (ts : List FTerm) (h : Heap), FTerm.wfList ts = true →
    ∃ ds, FTerm.getDOMs h ts = .ok ds ∧ ds.length = ts.length
  | [], _ => fun _ => ⟨[], rfl, rfl⟩
  | t :: ts, h => by
      intro hw
      simp only [FTerm.wfList, Bool.and_eq_true] at hw
      obtain ⟨hwt, hwts⟩ := hw
      obtain ⟨d, hd⟩ := wf_getDOM t h hwt
      obtain ⟨ds, hds, hlen⟩ := wfList_getDOMs ts h hwts
      exact ⟨d :: ds, by simp [FTerm.getDOMs, hd, hds], by simp [hlen]⟩

end

/-- Membership in the consequent leaf ids of a rule list. -/
theorem mem_consLeaves : ∀ (rs : List FuzzyRule) (j : Nat),
    j ∈ consLeaves rs ↔ ∃ r, r ∈ rs ∧ j ∈ FTerm.leaves r.consequent
  | [], j => by simp [consLeaves]
  | r :: rs, j => by
      simp only [consLeaves, List.mem_append, mem_consLeaves rs j, List.mem_cons]
      constructor
      · rintro (hh | ⟨r2, hr2, hj⟩)
        · exact ⟨r, Or.inl rfl, hh⟩
        · exact ⟨r2, Or.inr hr2, hj⟩
      · rintro ⟨r2, (rfl | hr2), hj⟩
        · exact Or.inl hj
        · exact Or.inr ⟨r2, hr2, hj⟩

/-- Membership in the antecedent leaf ids of a rule list. -/
theorem mem_antLeaves : ∀ (rs : List FuzzyRule) (j : Nat),
    j ∈ antLeaves rs ↔ ∃ r, r ∈ rs ∧ j ∈ FTerm.leaves r.antecedent
  | [], j => by simp [antLeaves]
  | r :: rs, j => by
      simp only [antLeaves, List.mem_append, mem_antLeaves rs j, List.mem_cons]
      constructor
      · rintro (hh | ⟨r2, hr2, hj⟩)
        · exact ⟨r, Or.inl rfl, hh⟩
        · exact ⟨r2, Or.inr hr2, hj⟩
      · rintro ⟨r2, (rfl | hr2), hj⟩
        · exact Or.inl hj
        · exact Or.inr ⟨r2, hr2, hj⟩

/-- A left fold of max lands on one of the candidates. -/
theorem foldl_max_mem : ∀ (ds : List ℚ) (d : ℚ), ds.foldl max d ∈ d :: ds
  | [], d => by simp
  | d2 :: ds, d => by
      have hrec := foldl_max_mem ds (max d d2)
      simp only [List.foldl_cons]
      rcases List.mem_cons.mp hrec with hh | hh
      · rcases max_choice d d2 with he | he
        · rw [hh, he]; exact List.mem_cons_self _ _
        · rw [hh, he]; exact List.mem_cons_of_mem _ (List.mem_cons_self _ _)
      · exact List.mem_cons_of_mem _ (List.mem_cons_of_mem _ hh)

/-- A left fold of max dominates every candidate. -/
theorem le_foldl_max : ∀ (ds : List ℚ) (d x : ℚ), x ∈ d :: ds → x ≤ ds.foldl max d
  | [], d, x => by
      intro hx
      simp only [List.foldl_nil]
      simp at hx
      exact le_of_eq hx
  | d2 :: ds, d, x => by
      intro hx
      simp only [List.foldl_cons]
      rcases List.mem_cons.mp hx with rfl | hx2
      · exact le_trans (le_max_left x d2) (le_foldl_max ds (max x d2) _ (List.mem_cons_self _ _))
      · rcases List.mem_cons.mp hx2 with rfl | hx3
        · exact le_trans (le_max_right d x) (le_foldl_max ds (max d x) _ (List.mem_cons_self _ _))
        · exact le_foldl_max ds (max d d2) x (List.mem_cons_of_mem _ hx3)

/-- Pointwise effect of the _initConsequences loop: every consequent leaf of
every rule is reset to 0, in any order, every other cell is untouched. -/
theorem runInit_heap : ∀ (rs : List FuzzyRule) (i : Nat) (h : Heap) (j : Nat),
    (runRulesInit rs i h).1 j = if j ∈ consLeaves rs then 0 else h j
  | [], i, h, j => by simp [runRulesInit, consLeaves]
  | r :: rs, i, h, j => by
      have h1 := runInit_heap rs (i + 1) (r.initConsequence h) j
      have h2 : r.initConsequence h j
          = if j ∈ FTerm.leaves r.consequent then 0 else h j :=
        clearDOM_apply r.consequent h j
      rw [show (runRulesInit (r :: rs) i h).1
            = (runRulesInit rs (i + 1) (r.initConsequence h)).1 from rfl]
      rw [h1, h2]
      by_cases m1 : j ∈ consLeaves rs <;> by_cases m2 : j ∈ FTerm.leaves r.consequent <;>
        simp [consLeaves, List.mem_append, m1, m2]

/-- Trace of the _initConsequences loop: one initConsequence event per rule,
in registration order. -/
theorem runInit_trace : ∀ (rs : List FuzzyRule) (i : Nat) (h : Heap),
    (runRulesInit rs i h).2 = (List.range' i rs.length).map Ev.initC
  | [], i, h => by simp [runRulesInit]
  | r :: rs, i, h => by
      have := runInit_trace rs (i + 1) (r.initConsequence h)
      simp [runRulesInit, this, List.range'_succ]

/-- On well-formed antecedents the evaluation loop raises no error and its
trace is one evaluate event per rule, in registration order. -/
theorem runEval_ok : ∀ (rs : List FuzzyRule),
    (∀ r ∈ rs, FTerm.wf r.antecedent = true) → ∀ (i : Nat) (h : Heap),
    (runRulesEval rs i h).2.1 = none ∧
      (runRulesEval rs i h).2.2 = (List.range' i rs.length).map Ev.evalR
  | [] => by intro _ i h; exact ⟨rfl, by simp [runRulesEval]⟩
  | r :: rs => by
      intro hwf i h
      obtain ⟨d, hd⟩ := wf_getDOM r.antecedent h (hwf r (List.mem_cons_self _ _))
      have heval : r.evaluate h = .ok (FTerm.updateDOM d h r.consequent) := by
        simp [FuzzyRule.evaluate, hd]
      have IH := runEval_ok rs (fun r2 hr2 => hwf r2 (List.mem_cons_of_mem _ hr2))
        (i + 1) (FTerm.updateDOM d h r.consequent)
      constructor
      · simp [runRulesEval, heval, IH.1]
      · simp [runRulesEval, heval, IH.2, List.range'_succ]

/-- Pointwise effect of the evaluation loop when no antecedent reads a cell
written by any consequent: each cell accumulates, by max, the antecedent
degrees (taken on the post-initialization heap h1) of exactly the rules
whose consequent contains that cell, in list order. -/
theorem runEval_spec (rules0 : List FuzzyRule) (h1 : Heap)
    (hd : ∀ j ∈ antLeaves rules0, j ∉ consLeaves rules0) :
    ∀ (rs : List FuzzyRule), (∀ r ∈ rs, r ∈ rules0) →
      (∀ r ∈ rs, FTerm.wf r.antecedent = true) →
      ∀ (i : Nat) (h : Heap), (∀ j ∈ antLeaves rules0, h j = h1 j) →
      ∀ (j : Nat), (runRulesEval rs i h).1 j =
        rs.foldl (fun acc r => if j ∈ FTerm.leaves r.consequent
          then max acc (degOf h1 r) else acc) (h j)
  | [], _, _, i, h, _ => fun j => by simp [runRulesEval]
  | r :: rs, hsub, hwf, i, h, hinv => by
      intro j
      have hrmem : r ∈ rules0 := hsub r (List.mem_cons_self _ _)
      have hcong : FTerm.getDOM h r.antecedent = FTerm.getDOM h1 r.antecedent :=
        getDOM_congr r.antecedent h h1
          (fun k hk => hinv k ((mem_antLeaves rules0 k).mpr ⟨r, hrmem, hk⟩))
      have hwfr := hwf r (List.mem_cons_self _ _)
      obtain ⟨d, hdok⟩ := wf_getDOM r.antecedent h1 hwfr
      have hdeg : degOf h1 r = d := by simp [degOf, hdok]
      have heval : r.evaluate h = .ok (FTerm.updateDOM d h r.consequent) := by
        simp [FuzzyRule.evaluate, hcong, hdok]
      have hinv2 : ∀ k ∈ antLeaves rules0, FTerm.updateDOM d h r.consequent k = h1 k := by
        intro k hk
        rw [updateDOM_apply]
        have hnot : k ∉ FTerm.leaves r.consequent := fun hcl =>
          hd k hk ((mem_consLeaves rules0 k).mpr ⟨r, hrmem, hcl⟩)
        simp [hnot, hinv k hk]
      have IH := runEval_spec rules0 h1 hd rs
        (fun r2 hr2 => hsub r2 (List.mem_cons_of_mem _ hr2))
        (fun r2 hr2 => hwf r2 (List.mem_cons_of_mem _ hr2))
        (i + 1) (FTerm.updateDOM d h r.consequent) hinv2
      simp only [runRulesEval, heval]
      rw [IH j, List.foldl_cons]
      congr 1
      rw [updateDOM_apply, hdeg]

/-- A left fold of a right-commutative function is invariant under
permutation of the list. -/
theorem foldl_perm {α β : Type} (f : β → α → β)
    (hf : ∀ b a a2, f (f b a) a2 = f (f b a2) a) :
    ∀ {l1 l2 : List α}, List.Perm l1 l2 → ∀ b, l1.foldl f b = l2.foldl f b := by
  intro l1 l2 p
  induction p with
  | nil => intro b; rfl
  | cons x p ih => intro b; simp only [List.foldl_cons]; exact ih _
  | swap x y l => intro b; simp only [List.foldl_cons]; rw [hf]
  | trans p q ih1 ih2 => intro b; rw [ih1 b, ih2 b]

end Yuka

namespace Yuka

/-- Claim C10: defuzzify leaves the FLV mapping and the rule sequence of the
module unchanged, for every name and every type value. -/
theorem claim_C10_defuzzify_frame (m : FuzzyModule) (h : Heap) (name : String) (type : Nat) :
    (m.defuzzify h name type).moduleState.flvs = m.flvs ∧
    (m.defuzzify h name type).moduleState.rules = m.rules := ⟨rfl, rfl⟩

/-- Claim C1: evaluation of removeRule at a rule absent from the two-element
rule sequence: the call silently removes the last rule instead of being a
no-op or raising a not-found error. -/
theorem claim_C1_removeRule_absent_removes_last :
    (FuzzyRule.mk (FTerm.leaf 4) (FTerm.leaf 5))
        ∉ (FuzzyModule.mk [⟨FTerm.leaf 0, FTerm.leaf 1⟩, ⟨FTerm.leaf 2, FTerm.leaf 3⟩] []).rules ∧
    ((FuzzyModule.mk [⟨FTerm.leaf 0, FTerm.leaf 1⟩, ⟨FTerm.leaf 2, FTerm.leaf 3⟩] []).removeRule
        ⟨FTerm.leaf 4, FTerm.leaf 5⟩).1.rules = [⟨FTerm.leaf 0, FTerm.leaf 1⟩] := by
  decide

/-- Claim C3: fuzzify with an unregistered FLV name signals an error to the
caller and leaves every degree of membership unchanged. -/
theorem claim_C3_fuzzify_unregistered_error (m : FuzzyModule) (h : Heap) (name : String)
    (v : ℚ) (hun : mapGet m.flvs name = none) :
    (m.fuzzify h name v).1 = h ∧ ∃ e, (m.fuzzify h name v).2 = .error e := by
  refine ⟨?_, "TypeError: flv is undefined", ?_⟩ <;> simp [FuzzyModule.fuzzify, hun]

/-- Claim C3 witness at a concrete empty module. -/
theorem claim_C3_witness :
    mapGet (FuzzyModule.mk [] []).flvs "speed" = none ∧
    ((FuzzyModule.mk [] []).fuzzify (fun _ => 0) "speed" 3).1 = (fun _ => (0 : ℚ)) ∧
    ∃ e, ((FuzzyModule.mk [] []).fuzzify (fun _ => 0) "speed" 3).2 = .error e := by
  have hth := claim_C3_fuzzify_unregistered_error (FuzzyModule.mk [] []) (fun _ => 0) "speed" 3 rfl
  exact ⟨rfl, hth.1, hth.2⟩

/-- Claim C8 counterexample: on the base FuzzyTerm all three operations
complete normally (getDegreeOfMembership yields the JS value undefined, the
two mutators leave the state untouched); none signals an error. -/
theorem claim_C8_counterexample :
    FTerm.getDOM (fun _ => (0 : ℚ)) FTerm.base = .ok JSVal.undef ∧
    FTerm.updateDOM 1 (fun _ => (0 : ℚ)) FTerm.base = (fun _ => (0 : ℚ)) ∧
    FTerm.clearDOM (fun _ => (0 : ℚ)) FTerm.base = (fun _ => (0 : ℚ)) := ⟨rfl, rfl, rfl⟩

/-- Claim C8 amended: calling getDegreeOfMembership, updateDegreeOfMembership
or clearDegreeOfMembership on the base FuzzyTerm completes normally as a
no-op returning the JS value undefined; the abstract contract is
documentation only, not a runtime check. -/
theorem claim_C8_amended (h : Heap) (v : ℚ) :
    FTerm.getDOM h FTerm.base = .ok JSVal.undef ∧
    FTerm.updateDOM v h FTerm.base = h ∧
    FTerm.clearDOM h FTerm.base = h := ⟨rfl, rfl, rfl⟩

/-- Claim C9: addFLV, removeFLV, addRule and removeRule return this, and
fuzzify returns this whenever it returns normally, which it does for a
registered name and an in-range value. -/
theorem claim_C9_fluent_chaining (m : FuzzyModule) (name nm2 : String) (flv flvR : FLV)
    (r : FuzzyRule) (h : Heap) (v : ℚ)
    (hreg : mapGet m.flvs nm2 = some flvR)
    (hlo : flvR.minRange ≤ v) (hhi : v ≤ flvR.maxRange) :
    (m.addFLV name flv).2 = JSRet.self ∧
    (m.removeFLV name).2 = JSRet.self ∧
    (m.addRule r).2 = JSRet.self ∧
    (m.removeRule r).2 = JSRet.self ∧
    (m.fuzzify h nm2 v).2 = Except.ok JSRet.self := by
  refine ⟨rfl, rfl, rfl, rfl, ?_⟩
  have hcond : ¬(v < flvR.minRange ∨ flvR.maxRange < v) := by
    push_neg
    exact ⟨hlo, hhi⟩
  simp [FuzzyModule.fuzzify, hreg, FLV.fuzzify, hcond]

/-- Claim C9 witness at a concrete module with one registered FLV. -/
theorem claim_C9_witness :
    mapGet (FuzzyModule.mk [] [("speed", FLV.mk 0 10 [])]).flvs "speed"
      = some (FLV.mk 0 10 []) ∧
    (FLV.mk 0 10 ([] : List FuzzySet)).minRange ≤ 3 ∧
    (3 : ℚ) ≤ (FLV.mk 0 10 ([] : List FuzzySet)).maxRange ∧
    ((FuzzyModule.mk [] [("speed", FLV.mk 0 10 [])]).addFLV "x" (FLV.mk 0 5 [])).2 = JSRet.self ∧
    ((FuzzyModule.mk [] [("speed", FLV.mk 0 10 [])]).removeFLV "x").2 = JSRet.self ∧
    ((FuzzyModule.mk [] [("speed", FLV.mk 0 10 [])]).addRule ⟨FTerm.leaf 0, FTerm.leaf 1⟩).2 = JSRet.self ∧
    ((FuzzyModule.mk [] [("speed", FLV.mk 0 10 [])]).removeRule ⟨FTerm.leaf 0, FTerm.leaf 1⟩).2 = JSRet.self ∧
    ((FuzzyModule.mk [] [("speed", FLV.mk 0 10 [])]).fuzzify (fun _ => 0) "speed" 3).2
      = Except.ok JSRet.self := by
  have hth := claim_C9_fluent_chaining (FuzzyModule.mk [] [("speed", FLV.mk 0 10 [])])
    "x" "speed" (FLV.mk 0 5 []) (FLV.mk 0 10 []) ⟨FTerm.leaf 0, FTerm.leaf 1⟩
    (fun _ => 0) 3 rfl (by norm_num) (by norm_num)
  exact ⟨rfl, by norm_num, by norm_num, hth.1, hth.2.1, hth.2.2.1, hth.2.2.2.1, hth.2.2.2.2⟩

/-- Claim C6: the degree of membership of a FuzzyOR with one or more children
is the maximum of the degrees of its children. -/
theorem claim_C6_fuzzyOR_max (h : Heap) (ts : List FTerm) (d : ℚ) (ds : List ℚ)
    (hds : FTerm.getDOMs h ts = .ok (d :: ds)) :
    FTerm.getDOM h (FTerm.fuzzyOR ts) = .ok (.num (ds.foldl max d)) ∧
    ds.foldl max d ∈ d :: ds ∧ ∀ x ∈ d :: ds, x ≤ ds.foldl max d := by
  exact ⟨by simp [FTerm.getDOM, hds], foldl_max_mem ds d, fun x hx => le_foldl_max ds d x hx⟩

/-- Claim C6 witness: children with degrees 0.2 and 0.5 yield 0.5. -/
theorem claim_C6_witness :
    FTerm.getDOMs (fun j => if j = 0 then (1 : ℚ)/5 else 1/2) [FTerm.leaf 0, FTerm.leaf 1]
      = .ok [1/5, 1/2] ∧
    FTerm.getDOM (fun j => if j = 0 then (1 : ℚ)/5 else 1/2)
      (FTerm.fuzzyOR [FTerm.leaf 0, FTerm.leaf 1]) = .ok (.num (1/2)) := by
  have hds : FTerm.getDOMs (fun j => if j = 0 then (1 : ℚ)/5 else 1/2)
      [FTerm.leaf 0, FTerm.leaf 1] = .ok [1/5, 1/2] := rfl
  have hth := (claim_C6_fuzzyOR_max _ _ _ _ hds).1
  have hmax : List.foldl max ((1 : ℚ)/5) [1/2] = 1/2 := by
    simp only [List.foldl_cons, List.foldl_nil]
    exact max_eq_right (by norm_num)
  rw [hmax] at hth
  exact ⟨hds, hth⟩

/-- Claim C2 counterexample: defuzzify with an unregistered name raises an
error, but only after the rule loops ran: the consequent accumulator of the
single rule was cleared from 1 to 0 before the error surfaced. -/
theorem claim_C2_counterexample :
    isErrE ((FuzzyModule.mk [⟨FTerm.leaf 1, FTerm.leaf 0⟩] []).defuzzify
        (fun j => if j = 0 then (1 : ℚ) else 0) "out" 0).value = true ∧
    ((FuzzyModule.mk [⟨FTerm.leaf 1, FTerm.leaf 0⟩] []).defuzzify
        (fun j => if j = 0 then (1 : ℚ) else 0) "out" 0).heap 0 = 0 ∧
    (fun j => if j = 0 then (1 : ℚ) else 0) 0 = 1 := by
  exact ⟨by decide, by decide, by norm_num⟩

/-- Claim C2 amended: defuzzify with an unregistered FLV name signals an
error to the caller, but only after initConsequence and evaluate ran for
every rule; the consequent accumulators may already be mutated when the
error surfaces. -/
theorem claim_C2_amended (m : FuzzyModule) (h : Heap) (name : String) (type : Nat)
    (hun : mapGet m.flvs name = none)
    (hwf : ∀ r ∈ m.rules, FTerm.wf r.antecedent = true) :
    (∃ e, (m.defuzzify h name type).value = .error e) ∧
    (m.defuzzify h name type).trace =
      ((List.range m.rules.length).map Ev.initC)
        ++ ((List.range m.rules.length).map Ev.evalR) := by
  have hev := runEval_ok m.rules hwf 0 (runRulesInit m.rules 0 h).1
  have htr := runInit_trace m.rules 0 h
  constructor
  · simp only [FuzzyModule.defuzzify]
    rw [hev.1, hun]
    split_ifs <;> exact ⟨_, rfl⟩
  · simp only [FuzzyModule.defuzzify]
    rw [hev.1, hun]
    split_ifs <;> (rw [htr, hev.2]; simp [List.range_eq_range'])

/-- Claim C2 amended witness at a concrete one-rule module. -/
theorem claim_C2_amended_witness :
    mapGet (FuzzyModule.mk [⟨FTerm.leaf 1, FTerm.leaf 0⟩] []).flvs "out" = none ∧
    (∀ r ∈ (FuzzyModule.mk [⟨FTerm.leaf 1, FTerm.leaf 0⟩] []).rules,
      FTerm.wf r.antecedent = true) ∧
    (∃ e, ((FuzzyModule.mk [⟨FTerm.leaf 1, FTerm.leaf 0⟩] []).defuzzify
        (fun _ => 0) "out" 0).value = .error e) ∧
    ((FuzzyModule.mk [⟨FTerm.leaf 1, FTerm.leaf 0⟩] []).defuzzify
        (fun _ => 0) "out" 0).trace = [Ev.initC 0, Ev.evalR 0] := by
  have hth := claim_C2_amended (FuzzyModule.mk [⟨FTerm.leaf 1, FTerm.leaf 0⟩] [])
    (fun _ => 0) "out" 0 rfl (by decide)
  refine ⟨rfl, by decide, hth.1, ?_⟩
  have := hth.2
  simpa using this

/-- Claim C4: with a registered FLV, an unrecognized defuzzification type
does not fail: the call sets the warning flag and returns the MaxAv
defuzzification of that FLV on the final heap. -/
theorem claim_C4_unknown_type_warns_maxav (m : FuzzyModule) (h : Heap) (name : String)
    (flv : FLV) (type : Nat)
    (hreg : mapGet m.flvs name = some flv)
    (ht0 : type ≠ DEFUZ_MAXAV) (ht1 : type ≠ DEFUZ_CENTROID)
    (hwf : ∀ r ∈ m.rules, FTerm.wf r.antecedent = true) :
    (m.defuzzify h name type).warned = true ∧
    (m.defuzzify h name type).value
      = .ok (FLV.defuzzifyMaxAv flv ((m.defuzzify h name type).heap)) := by
  have hev := runEval_ok m.rules hwf 0 (runRulesInit m.rules 0 h).1
  constructor
  · simp only [FuzzyModule.defuzzify]
    rw [hev.1, hreg]
    simp [ht0, ht1]
  · simp only [FuzzyModule.defuzzify]
    rw [hev.1, hreg]
    simp [ht0, ht1]

/-- Claim C4 witness at a concrete module, type 7. -/
theorem claim_C4_witness :
    mapGet (FuzzyModule.mk [] [("out", FLV.mk 0 10 [FuzzySet.mk 0 5 (fun _ => 1)])]).flvs "out"
      = some (FLV.mk 0 10 [FuzzySet.mk 0 5 (fun _ => 1)]) ∧
    (7 : Nat) ≠ DEFUZ_MAXAV ∧ (7 : Nat) ≠ DEFUZ_CENTROID ∧
    ((FuzzyModule.mk [] [("out", FLV.mk 0 10 [FuzzySet.mk 0 5 (fun _ => 1)])]).defuzzify
        (fun _ => 1) "out" 7).warned = true ∧
    ((FuzzyModule.mk [] [("out", FLV.mk 0 10 [FuzzySet.mk 0 5 (fun _ => 1)])]).defuzzify
        (fun _ => 1) "out" 7).value
      = .ok (FLV.defuzzifyMaxAv (FLV.mk 0 10 [FuzzySet.mk 0 5 (fun _ => 1)])
          (((FuzzyModule.mk [] [("out", FLV.mk 0 10 [FuzzySet.mk 0 5 (fun _ => 1)])]).defuzzify
              (fun _ => 1) "out" 7).heap)) := by
  have hth := claim_C4_unknown_type_warns_maxav
    (FuzzyModule.mk [] [("out", FLV.mk 0 10 [FuzzySet.mk 0 5 (fun _ => 1)])])
    (fun _ => 1) "out" (FLV.mk 0 10 [FuzzySet.mk 0 5 (fun _ => 1)]) 7
    rfl (by decide) (by decide) (by simp)
  exact ⟨rfl, by decide, by decide, hth.1, hth.2⟩

/-- Claim C5: with a registered FLV and well-formed rules, one defuzzify call
runs initConsequence once per rule, in order, before any evaluate, then
evaluate once per rule in registration order, and only then dispatches to
the chosen defuzzification method. -/
theorem claim_C5_defuzzify_call_order (m : FuzzyModule) (h : Heap) (name : String)
    (flv : FLV) (type : Nat)
    (hreg : mapGet m.flvs name = some flv)
    (hwf : ∀ r ∈ m.rules, FTerm.wf r.antecedent = true) :
    (m.defuzzify h name type).trace =
      ((List.range m.rules.length).map Ev.initC)
        ++ ((List.range m.rules.length).map Ev.evalR)
        ++ [Ev.dispatch (if type = DEFUZ_CENTROID then DEFUZ_CENTROID else DEFUZ_MAXAV)] := by
  have hev := runEval_ok m.rules hwf 0 (runRulesInit m.rules 0 h).1
  have htr := runInit_trace m.rules 0 h
  simp only [FuzzyModule.defuzzify]
  rw [hev.1, hreg]
  by_cases h0 : type = DEFUZ_MAXAV
  · simp [h0, htr, hev.2, List.range_eq_range', DEFUZ_MAXAV, DEFUZ_CENTROID,
      List.append_assoc]
  · by_cases h1 : type = DEFUZ_CENTROID
    · simp [h0, h1, htr, hev.2, List.range_eq_range', DEFUZ_MAXAV, DEFUZ_CENTROID,
        List.append_assoc]
    · simp only [DEFUZ_MAXAV, DEFUZ_CENTROID] at h0 h1
      simp [h0, h1, DEFUZ_MAXAV, DEFUZ_CENTROID, htr, hev.2, List.range_eq_range',
        List.append_assoc]

/-- Claim C5 witness at a concrete two-rule module. -/
theorem claim_C5_witness :
    mapGet (FuzzyModule.mk [⟨FTerm.leaf 0, FTerm.leaf 2⟩, ⟨FTerm.leaf 1, FTerm.leaf 2⟩]
        [("out", FLV.mk 0 10 [])]).flvs "out" = some (FLV.mk 0 10 []) ∧
    (∀ r ∈ (FuzzyModule.mk [⟨FTerm.leaf 0, FTerm.leaf 2⟩, ⟨FTerm.leaf 1, FTerm.leaf 2⟩]
        [("out", FLV.mk 0 10 [])]).rules, FTerm.wf r.antecedent = true) ∧
    ((FuzzyModule.mk [⟨FTerm.leaf 0, FTerm.leaf 2⟩, ⟨FTerm.leaf 1, FTerm.leaf 2⟩]
        [("out", FLV.mk 0 10 [])]).defuzzify (fun _ => 0) "out" 0).trace =
      ((List.range 2).map Ev.initC) ++ ((List.range 2).map Ev.evalR)
        ++ [Ev.dispatch (if 0 = DEFUZ_CENTROID then DEFUZ_CENTROID else DEFUZ_MAXAV)] := by
  have hth := claim_C5_defuzzify_call_order
    (FuzzyModule.mk [⟨FTerm.leaf 0, FTerm.leaf 2⟩, ⟨FTerm.leaf 1, FTerm.leaf 2⟩]
      [("out", FLV.mk 0 10 [])])
    (fun _ => 0) "out" (FLV.mk 0 10 []) 0 rfl (by decide)
  exact ⟨rfl, by decide, hth⟩

/-- Claim C7: permuting the rule-registration order before a defuzzify call
yields an identical crisp result when no antecedent reads a set written by
any consequent (independent or OR-compatible consequents). -/
theorem claim_C7_rule_order_independent (m1 m2 : FuzzyModule) (h : Heap) (name : String)
    (type : Nat)
    (hflvs : m2.flvs = m1.flvs)
    (hperm : List.Perm m1.rules m2.rules)
    (hwf : ∀ r ∈ m1.rules, FTerm.wf r.antecedent = true)
    (hdisj : ∀ j ∈ antLeaves m1.rules, j ∉ consLeaves m1.rules) :
    (m2.defuzzify h name type).value = (m1.defuzzify h name type).value := by
  have hwf2 : ∀ r ∈ m2.rules, FTerm.wf r.antecedent = true :=
    fun r hr => hwf r (hperm.mem_iff.mpr hr)
  have hmemC : ∀ j : Nat, j ∈ consLeaves m2.rules ↔ j ∈ consLeaves m1.rules := by
    intro j
    rw [mem_consLeaves, mem_consLeaves]
    constructor
    · rintro ⟨r, hr, hj⟩
      exact ⟨r, hperm.mem_iff.mpr hr, hj⟩
    · rintro ⟨r, hr, hj⟩
      exact ⟨r, hperm.mem_iff.mp hr, hj⟩
  have hinit : (runRulesInit m2.rules 0 h).1 = (runRulesInit m1.rules 0 h).1 := by
    funext j
    rw [runInit_heap, runInit_heap]
    exact if_congr (hmemC j) rfl rfl
  have hA := runEval_spec m1.rules ((runRulesInit m1.rules 0 h).1) hdisj m1.rules
    (fun _ hr => hr) hwf 0 ((runRulesInit m1.rules 0 h).1) (fun _ _ => rfl)
  have hB := runEval_spec m1.rules ((runRulesInit m1.rules 0 h).1) hdisj m2.rules
    (fun r hr => hperm.mem_iff.mpr hr) hwf2 0 ((runRulesInit m1.rules 0 h).1)
    (fun _ _ => rfl)
  have hheap : (runRulesEval m2.rules 0 ((runRulesInit m1.rules 0 h).1)).1
      = (runRulesEval m1.rules 0 ((runRulesInit m1.rules 0 h).1)).1 := by
    funext j
    rw [hB j, hA j]
    refine (foldl_perm _ ?_ hperm ((runRulesInit m1.rules 0 h).1 j)).symm
    intro b a a2
    by_cases c1 : j ∈ FTerm.leaves a.consequent <;>
      by_cases c2 : j ∈ FTerm.leaves a2.consequent <;>
        simp [c1, c2, sup_right_comm]
  have herrA := (runEval_ok m1.rules hwf 0 ((runRulesInit m1.rules 0 h).1)).1
  have herrB := (runEval_ok m2.rules hwf2 0 ((runRulesInit m1.rules 0 h).1)).1
  simp only [FuzzyModule.defuzzify]
  rw [hinit, herrB, herrA, hheap, hflvs]
  cases hm : mapGet m1.flvs name with
  | none => split_ifs <;> rfl
  | some flv => split_ifs <;> rfl

/-- Claim C7 witness: swapping two rules with a shared OR-compatible
consequent gives the same crisp defuzzification result. -/
theorem claim_C7_witness :
    (FuzzyModule.mk [⟨FTerm.leaf 1, FTerm.leaf 2⟩, ⟨FTerm.leaf 0, FTerm.leaf 2⟩]
        [("out", FLV.mk 0 10 [FuzzySet.mk 2 5 (fun _ => 1)])]).flvs
      = (FuzzyModule.mk [⟨FTerm.leaf 0, FTerm.leaf 2⟩, ⟨FTerm.leaf 1, FTerm.leaf 2⟩]
        [("out", FLV.mk 0 10 [FuzzySet.mk 2 5 (fun _ => 1)])]).flvs ∧
    List.Perm [(⟨FTerm.leaf 0, FTerm.leaf 2⟩ : FuzzyRule), ⟨FTerm.leaf 1, FTerm.leaf 2⟩]
      [⟨FTerm.leaf 1, FTerm.leaf 2⟩, ⟨FTerm.leaf 0, FTerm.leaf 2⟩] ∧
    ((FuzzyModule.mk [⟨FTerm.leaf 1, FTerm.leaf 2⟩, ⟨FTerm.leaf 0, FTerm.leaf 2⟩]
        [("out", FLV.mk 0 10 [FuzzySet.mk 2 5 (fun _ => 1)])]).defuzzify
        (fun j => if j = 0 then 1 else 0) "out" 0).value
      = ((FuzzyModule.mk [⟨FTerm.leaf 0, FTerm.leaf 2⟩, ⟨FTerm.leaf 1, FTerm.leaf 2⟩]
        [("out", FLV.mk 0 10 [FuzzySet.mk 2 5 (fun _ => 1)])]).defuzzify
        (fun j => if j = 0 then 1 else 0) "out" 0).value := by
  refine ⟨rfl, List.Perm.swap _ _ _, ?_⟩
  exact claim_C7_rule_order_independent
    (FuzzyModule.mk [⟨FTerm.leaf 0, FTerm.leaf 2⟩, ⟨FTerm.leaf 1, FTerm.leaf 2⟩]
      [("out", FLV.mk 0 10 [FuzzySet.mk 2 5 (fun _ => 1)])])
    (FuzzyModule.mk [⟨FTerm.leaf 1, FTerm.leaf 2⟩, ⟨FTerm.leaf 0, FTerm.leaf 2⟩]
      [("out", FLV.mk 0 10 [FuzzySet.mk 2 5 (fun _ => 1)])])
    (fun j => if j = 0 then 1 else 0) "out" 0
    rfl (List.Perm.swap _ _ _) (by decide) (by decide)

end Yuka
